import Mathlib

/-!
Shallow embedding of the SymbolConverter preprocessor of the
text-to-speech repository (src/tts_app/preprocessors/symbols.py).
Text is modelled as List Char.  Each regex pass of the source is
embedded as a fuel-indexed scanner that mirrors the leftmost,
non-overlapping matching discipline of re.sub and str.replace; the
fuel is always instantiated with the length of the scanned text,
which suffices because every step consumes at least one character.
-/

namespace TTS

abbrev Text := List Char

/-- Character class of the regex escape for whitespace, restricted to
the ASCII whitespace characters used by the repository inputs
(space, tab, newline, carriage return, vertical tab, form feed). -/
def isPySpace (c : Char) : Bool :=
  c == ' ' || c == '\t' || c == '\n' || c == '\r' || c == '\x0b' || c == '\x0c'

/-- Character class of the regex escape for digits. -/
def isPyDigit (c : Char) : Bool :=
  c.isDigit

/-- Character class of the regex escape for word characters, over the
ranges relevant to the repository: ASCII alphanumerics, underscore,
and the Cyrillic block. -/
def isWordChar (c : Char) : Bool :=
  c.isAlphanum || c == '_' || (decide (0x400 ≤ c.toNat) && decide (c.toNat ≤ 0x4FF))

/-- Bullet glyph class of the bullet-removal pattern in
SymbolConverter._convert_standalone_symbols. -/
def isBullet (c : Char) : Bool :=
  c == '•' || c == '◦' || c == '▪' || c == '▸' || c == '►'

/-- Head character test used by lookahead-style checks. -/
def headIs (x : Char) : Text → Bool
  | [] => false
  | c :: _ => c == x

/-- Head whitespace test used by the lookahead of the spaced-equals rule. -/
def headSpace : Text → Bool
  | [] => false
  | c :: _ => isPySpace c

/-- Localized phrase table: one field per symbol key of the source
dictionaries SYMBOL_MAP_EN and SYMBOL_MAP_RU.  The source keys at and
and are not legal field names, so they are suffixed with _word. -/
structure SymbolMap where
  equals : Text
  plus : Text
  minus : Text
  times : Text
  divided_by : Text
  percent : Text
  less_than : Text
  greater_than : Text
  less_or_equal : Text
  greater_or_equal : Text
  not_equal : Text
  arrow : Text
  dollars : Text
  euros : Text
  pounds : Text
  yen : Text
  rubles : Text
  at_word : Text
  and_word : Text
  number : Text
  point : Text
deriving DecidableEq, Repr

/-- SymbolConverter.SYMBOL_MAP_EN. -/
def SYMBOL_MAP_EN : SymbolMap where
  equals := " equals ".toList
  plus := " plus ".toList
  minus := " minus ".toList
  times := " times ".toList
  divided_by := " divided by ".toList
  percent := " percent".toList
  less_than := " less than ".toList
  greater_than := " greater than ".toList
  less_or_equal := " less than or equal to ".toList
  greater_or_equal := " greater than or equal to ".toList
  not_equal := " not equal to ".toList
  arrow := " arrow ".toList
  dollars := " dollars".toList
  euros := " euros".toList
  pounds := " pounds".toList
  yen := " yen".toList
  rubles := " rubles".toList
  at_word := " at ".toList
  and_word := " and ".toList
  number := " number ".toList
  point := "Point ".toList

/-- SymbolConverter.SYMBOL_MAP_RU. -/
def SYMBOL_MAP_RU : SymbolMap where
  equals := " равно ".toList
  plus := " плюс ".toList
  minus := " минус ".toList
  times := " умножить на ".toList
  divided_by := " делить на ".toList
  percent := " процентов".toList
  less_than := " меньше ".toList
  greater_than := " больше ".toList
  less_or_equal := " меньше или равно ".toList
  greater_or_equal := " больше или равно ".toList
  not_equal := " не равно ".toList
  arrow := " стрелка ".toList
  dollars := " долларов".toList
  euros := " евро".toList
  pounds := " фунтов".toList
  yen := " иен".toList
  rubles := " рублей".toList
  at_word := " собака ".toList
  and_word := " и ".toList
  number := " номер ".toList
  point := "Пункт ".toList

/-- SymbolConverter.LANGUAGE_MAPS: the supported-language registry. -/
def LANGUAGE_MAPS : List (String × SymbolMap) :=
  [("ru", SYMBOL_MAP_RU), ("en", SYMBOL_MAP_EN)]

/-- SymbolConverter._get_symbol_map: the registry table when the
language code is truthy and registered, the English table otherwise. -/
def getSymbolMap (language : String) : SymbolMap :=
  if language ≠ "" ∧ (LANGUAGE_MAPS.lookup language).isSome = true then
    (LANGUAGE_MAPS.lookup language).getD SYMBOL_MAP_EN
  else SYMBOL_MAP_EN

/-- Language resolution of SymbolConverter.process: the hint when it is
non-empty, the oracle result otherwise.  The external
detect_primary_language oracle is modelled by its result, passed in as
the oracle argument. -/
def resolveLanguage (hint oracle : String) : String :=
  if hint = "" then oracle else hint

/-- The phrase table selected by SymbolConverter.process for a given
hint and oracle result. -/
def selectedMap (hint oracle : String) : SymbolMap :=
  getSymbolMap (resolveLanguage hint oracle)

/-- Match attempt of the numbered-list pattern, digits then a period or
a closing parenthesis then optional whitespace, at the current
position.  Returns the replacement text together with the unscanned
rest on success. -/
def tryListMarker (pointWord : Text) (s : Text) : Option (Text × Text) :=
  if (s.takeWhile isPyDigit).length = 0 ∨ 3 < (s.takeWhile isPyDigit).length then none
  else
    match s.dropWhile isPyDigit with
    | '.' :: r2 =>
      some (pointWord ++ s.takeWhile isPyDigit ++ '.' :: r2.takeWhile isPySpace, r2.dropWhile isPySpace)
    | ')' :: r2 =>
      some (s.takeWhile isPyDigit ++ '.' :: r2.takeWhile isPySpace, r2.dropWhile isPySpace)
    | _ => none

/-- Scanner of the numbered-list substitution at positions after the
start of the text: a match may begin only right after a newline. -/
def listScan (pointWord : Text) : Nat → Text → Text
  | 0, s => s
  | _ + 1, [] => []
  | fuel + 1, c :: rest =>
    if c = '\n' then
      match tryListMarker pointWord rest with
      | some (rep, r) => c :: (rep ++ listScan pointWord fuel r)
      | none => c :: listScan pointWord fuel rest
    else c :: listScan pointWord fuel rest

/-- SymbolConverter._convert_numbered_lists: the anchored alternative
is tried at position zero, every later match starts at a newline. -/
def convert_numbered_lists (pointWord : Text) (s : Text) : Text :=
  match tryListMarker pointWord s with
  | some (rep, r) => rep ++ listScan pointWord r.length r
  | none => listScan pointWord s.length s

/-- Leading-match test for the literal replacement scanner. -/
def matchesAt : Text → Text → Bool
  | [], _ => true
  | _ :: _, [] => false
  | p :: ps, c :: cs => p == c && matchesAt ps cs

/-- Scanner of the literal, non-overlapping, left-to-right replacement
performed by the replace method of Python strings. -/
def replaceScan (pat rep : Text) : Nat → Text → Text
  | 0, s => s
  | _ + 1, [] => []
  | fuel + 1, c :: rest =>
    if pat.isEmpty = false && matchesAt pat (c :: rest) then
      rep ++ replaceScan pat rep fuel ((c :: rest).drop pat.length)
    else c :: replaceScan pat rep fuel rest

/-- Replacement of every occurrence of a literal pattern. -/
def str_replace (pat rep s : Text) : Text :=
  replaceScan pat rep s.length s

/-- Match attempt of the equation pattern, a word run then optional
whitespace then an equals sign then optional whitespace then a word
run, at the current position.  The whitespace of the match is dropped;
the two word runs are kept around the equals phrase. -/
def tryEq (eqWord : Text) (s : Text) : Option (Text × Text) :=
  if (s.takeWhile isWordChar).length = 0 then none
  else
    match (s.dropWhile isWordChar).dropWhile isPySpace with
    | '=' :: r3 =>
      if ((r3.dropWhile isPySpace).takeWhile isWordChar).length = 0 then none
      else
        some (s.takeWhile isWordChar ++ eqWord ++ (r3.dropWhile isPySpace).takeWhile isWordChar,
          (r3.dropWhile isPySpace).dropWhile isWordChar)
    | _ => none

/-- Scanner of the equation substitution. -/
def eqScan (eqWord : Text) : Nat → Text → Text
  | 0, s => s
  | _ + 1, [] => []
  | fuel + 1, c :: rest =>
    match tryEq eqWord (c :: rest) with
    | some (rep, r) => rep ++ eqScan eqWord fuel r
    | none => c :: eqScan eqWord fuel rest

/-- Scanner of the spaced standalone equals substitution: an equals
sign is replaced exactly when the previous character of the subject
and the next character of the subject are whitespace; both context
characters stay in place, mirroring the zero-width assertions of the
source pattern. -/
def spacedEqScan (eqWord : Text) : Nat → Bool → Text → Text
  | 0, _, s => s
  | _ + 1, _, [] => []
  | fuel + 1, prevSpace, c :: rest =>
    if c == '=' && prevSpace && headSpace rest then
      eqWord ++ spacedEqScan eqWord fuel false rest
    else c :: spacedEqScan eqWord fuel (isPySpace c) rest

/-- Match attempt of the addition pattern, a digit run then optional
whitespace then a plus sign then optional whitespace then a digit run,
at the current position. -/
def tryPlus (plusWord : Text) (s : Text) : Option (Text × Text) :=
  if (s.takeWhile isPyDigit).length = 0 then none
  else
    match (s.dropWhile isPyDigit).dropWhile isPySpace with
    | '+' :: r3 =>
      if ((r3.dropWhile isPySpace).takeWhile isPyDigit).length = 0 then none
      else
        some (s.takeWhile isPyDigit ++ plusWord ++ (r3.dropWhile isPySpace).takeWhile isPyDigit,
          (r3.dropWhile isPySpace).dropWhile isPyDigit)
    | _ => none

/-- Scanner of the addition substitution. -/
def plusScan (plusWord : Text) : Nat → Text → Text
  | 0, s => s
  | _ + 1, [] => []
  | fuel + 1, c :: rest =>
    match tryPlus plusWord (c :: rest) with
    | some (rep, r) => rep ++ plusScan plusWord fuel r
    | none => c :: plusScan plusWord fuel rest

/-- Scanner of the percentage substitution: a maximal digit run
immediately followed by a percent sign. -/
def percentScan (percentWord : Text) : Nat → Text → Text
  | 0, s => s
  | _ + 1, [] => []
  | fuel + 1, c :: rest =>
    if isPyDigit c then
      match (c :: rest).dropWhile isPyDigit with
      | '%' :: r2 => (c :: rest).takeWhile isPyDigit ++ percentWord ++ percentScan percentWord fuel r2
      | _ => c :: percentScan percentWord fuel rest
    else c :: percentScan percentWord fuel rest

/-- Match attempt of the currency amount, a digit run optionally
followed by a decimal point and exactly two digits. -/
def tryAmount (s : Text) : Option (Text × Text) :=
  if (s.takeWhile isPyDigit).length = 0 then none
  else
    match s.dropWhile isPyDigit with
    | '.' :: d1 :: d2 :: r2 =>
      if isPyDigit d1 && isPyDigit d2 then some (s.takeWhile isPyDigit ++ '.' :: d1 :: d2 :: [], r2)
      else some (s.takeWhile isPyDigit, s.dropWhile isPyDigit)
    | _ => some (s.takeWhile isPyDigit, s.dropWhile isPyDigit)

/-- Scanner of one currency substitution: the symbol is dropped, the
amount is kept and the localized currency phrase is appended. -/
def currencyScan (sym : Char) (word : Text) : Nat → Text → Text
  | 0, s => s
  | _ + 1, [] => []
  | fuel + 1, c :: rest =>
    if c = sym then
      match tryAmount rest with
      | some (amount, r) => amount ++ word ++ currencyScan sym word fuel r
      | none => c :: currencyScan sym word fuel rest
    else c :: currencyScan sym word fuel rest

/-- Match attempt of the bullet tail, optional whitespace then a bullet
glyph then optional whitespace, right after the anchor.  Returns the
unscanned rest; the whole match is deleted. -/
def tryBullet (s : Text) : Option Text :=
  match s.dropWhile isPySpace with
  | g :: r2 => if isBullet g then some (r2.dropWhile isPySpace) else none
  | [] => none

/-- Scanner of the bullet deletion at positions after the start of the
text: a match may begin only at a newline, which is kept. -/
def bulletScan : Nat → Text → Text
  | 0, s => s
  | _ + 1, [] => []
  | fuel + 1, c :: rest =>
    if c = '\n' then
      match tryBullet rest with
      | some r => c :: bulletScan fuel r
      | none => c :: bulletScan fuel rest
    else c :: bulletScan fuel rest

/-- Bullet deletion pass: the anchored alternative is tried at position
zero, every later match starts at a newline. -/
def bulletSub (s : Text) : Text :=
  match tryBullet s with
  | some r => bulletScan r.length r
  | none => bulletScan s.length s

/-- Match attempt of the ampersand pattern, whitespace then an
ampersand then whitespace, all consumed and replaced by the localized
and phrase. -/
def tryAmp (andWord : Text) (s : Text) : Option (Text × Text) :=
  if (s.takeWhile isPySpace).length = 0 then none
  else
    match s.dropWhile isPySpace with
    | '&' :: r2 =>
      if (r2.takeWhile isPySpace).length = 0 then none
      else some (andWord, r2.dropWhile isPySpace)
    | _ => none

/-- Scanner of the ampersand substitution. -/
def ampScan (andWord : Text) : Nat → Text → Text
  | 0, s => s
  | _ + 1, [] => []
  | fuel + 1, c :: rest =>
    match tryAmp andWord (c :: rest) with
    | some (rep, r) => rep ++ ampScan andWord fuel r
    | none => c :: ampScan andWord fuel rest

/-- Scanner of the issue-number substitution: a hash sign immediately
followed by a digit run becomes the localized number phrase and the
digits. -/
def hashScan (numberWord : Text) : Nat → Text → Text
  | 0, s => s
  | _ + 1, [] => []
  | fuel + 1, c :: rest =>
    if c = '#' then
      if (rest.takeWhile isPyDigit).length = 0 then c :: hashScan numberWord fuel rest
      else numberWord ++ rest.takeWhile isPyDigit ++ hashScan numberWord fuel (rest.dropWhile isPyDigit)
    else c :: hashScan numberWord fuel rest

/-- Scanner of the final cleanup: every run of two or more consecutive
space characters collapses into a single space. -/
def collapseScan : Nat → Text → Text
  | 0, s => s
  | _ + 1, [] => []
  | fuel + 1, c :: rest =>
    if c == ' ' && headIs ' ' rest then
      ' ' :: collapseScan fuel (rest.dropWhile (· == ' '))
    else c :: collapseScan fuel rest

/-- Equation substitution pass. -/
def eqSub (eqWord : Text) (s : Text) : Text :=
  eqScan eqWord s.length s

/-- Spaced standalone equals substitution pass.  At position zero there
is no previous character, so the lookbehind starts unsatisfied. -/
def spacedEqSub (eqWord : Text) (s : Text) : Text :=
  spacedEqScan eqWord s.length false s

/-- Addition substitution pass. -/
def plusSub (plusWord : Text) (s : Text) : Text :=
  plusScan plusWord s.length s

/-- Percentage substitution pass. -/
def percentSub (percentWord : Text) (s : Text) : Text :=
  percentScan percentWord s.length s

/-- One currency substitution pass. -/
def currencySub (sym : Char) (word : Text) (s : Text) : Text :=
  currencyScan sym word s.length s

/-- Ampersand substitution pass. -/
def ampSub (andWord : Text) (s : Text) : Text :=
  ampScan andWord s.length s

/-- Issue-number substitution pass. -/
def hashSub (numberWord : Text) (s : Text) : Text :=
  hashScan numberWord s.length s

/-- Final cleanup pass of SymbolConverter.process. -/
def collapseSpaces (s : Text) : Text :=
  collapseScan s.length s

/-- SymbolConverter._convert_math_expressions. -/
def convert_math_expressions (m : SymbolMap) (s : Text) : Text :=
  let s1 := str_replace ">=".toList m.greater_or_equal s
  let s2 := str_replace "<=".toList m.less_or_equal s1
  let s3 := str_replace "!=".toList m.not_equal s2
  let s4 := str_replace "==".toList m.equals s3
  let s5 := eqSub m.equals s4
  let s6 := spacedEqSub m.equals s5
  let s7 := plusSub m.plus s6
  percentSub m.percent s7

/-- SymbolConverter._convert_standalone_symbols. -/
def convert_standalone_symbols (m : SymbolMap) (s : Text) : Text :=
  let s1 := currencySub '$' m.dollars s
  let s2 := currencySub '€' m.euros s1
  let s3 := currencySub '£' m.pounds s2
  let s4 := currencySub '₽' m.rubles s3
  let s5 := bulletSub s4
  let s6 := ampSub m.and_word s5
  let s7 := hashSub m.number s6
  let s8 := str_replace "→".toList m.arrow s7
  let s9 := str_replace "←".toList m.arrow s8
  let s10 := str_replace "->".toList m.arrow s9
  str_replace "<-".toList m.arrow s10

/-- The pass pipeline of SymbolConverter.process for a fixed phrase
table: numbered lists, then math expressions, then standalone symbols,
then the space cleanup. -/
def runPasses (m : SymbolMap) (text : Text) : Text :=
  let r1 := convert_numbered_lists m.point text
  let r2 := convert_math_expressions m r1
  let r3 := convert_standalone_symbols m r2
  collapseSpaces r3

/-- SymbolConverter.process: resolve the language, select the phrase
table, run the passes. -/
def process (hint oracle : String) (text : Text) : Text :=
  runPasses (selectedMap hint oracle) text

/-- String-level entry point of the transform. -/
def transform (text hint oracle : String) : String :=
  ⟨process hint oracle text.toList⟩

/-- Run predicate: every character of the text is whitespace. -/
abbrev AllSpace (s : Text) : Prop := ∀ c ∈ s, isPySpace c = true

/-- Run predicate: every character of the text is a digit. -/
abbrev AllDigit (s : Text) : Prop := ∀ c ∈ s, isPyDigit c = true

/-- Run predicate: every character of the text is a word character. -/
abbrev AllWord (s : Text) : Prop := ∀ c ∈ s, isWordChar c = true

/-- Absence predicate: no character of the text is a bullet glyph. -/
abbrev GlyphFree (s : Text) : Prop := ∀ c ∈ s, isBullet c = false

/-- Blocked-head predicate: the first character, when present, does not
satisfy the class p. -/
def HeadNot (p : Char → Bool) : Text → Prop
  | [] => True
  | c :: _ => p c = false

instance instDecidableHeadNot (p : Char → Bool) : (s : Text) → Decidable (HeadNot p s)
  | [] => isTrue trivial
  | c :: _ => inferInstanceAs (Decidable (p c = false))

/-- Observation predicate: the text contains two adjacent space
characters somewhere. -/
def hasDoubleSpace : Text → Bool
  | c1 :: c2 :: rest => (c1 == ' ' && c2 == ' ') || hasDoubleSpace (c2 :: rest)
  | _ => false

/-- Observation predicate: the pattern occurs contiguously somewhere
in the text. -/
def occursIn (pat : Text) : Text → Bool
  | [] => pat.isEmpty
  | c :: rest => matchesAt pat (c :: rest) || occursIn pat rest

/-- Modelled from the spec: the phrase table that section 4.1 of the
specification says language resolution selects.  A non-empty hint
present in the registry is used verbatim; otherwise the oracle result
is used, with a registry lookup failure on the oracle result falling
back to English.  Kept separate from the embedding of the source so
the two can be compared. -/
def claimedSelectedMap (hint oracle : String) : SymbolMap :=
  if hint ≠ "" ∧ (LANGUAGE_MAPS.lookup hint).isSome = true then
    (LANGUAGE_MAPS.lookup hint).getD SYMBOL_MAP_EN
  else
    match LANGUAGE_MAPS.lookup oracle with
    | some m => m
    | none => SYMBOL_MAP_EN

theorem headNot_nil (p : Char → Bool) : HeadNot p [] := trivial

theorem headNot_cons {p : Char → Bool} {c : Char} {s : Text} (h : p c = false) :
    HeadNot p (c :: s) := h

/-- The takeWhile prefix of a satisfied run followed by a blocked head
is the run itself. -/
theorem takeWhile_run_append (p : Char → Bool) (a b : Text)
    (ha : ∀ c ∈ a, p c = true) (hb : HeadNot p b) :
    (a ++ b).takeWhile p = a := by
  induction a with
  | nil =>
    cases b with
    | nil => rfl
    | cons c cs =>
      have hc : p c = false := hb
      simp [List.takeWhile_cons, hc]
  | cons x xs ih =>
    have hx : p x = true := ha x (List.mem_cons_self x xs)
    simp only [List.cons_append, List.takeWhile_cons, hx, if_true]
    rw [ih (fun c hc => ha c (List.mem_cons_of_mem _ hc))]

/-- The dropWhile remainder of a satisfied run followed by a blocked
head is the tail itself. -/
theorem dropWhile_run_append (p : Char → Bool) (a b : Text)
    (ha : ∀ c ∈ a, p c = true) (hb : HeadNot p b) :
    (a ++ b).dropWhile p = b := by
  induction a with
  | nil =>
    cases b with
    | nil => rfl
    | cons c cs =>
      have hc : p c = false := hb
      simp [List.dropWhile_cons, hc]
  | cons x xs ih =>
    have hx : p x = true := ha x (List.mem_cons_self x xs)
    simp only [List.cons_append, List.dropWhile_cons, hx, if_true]
    exact ih (fun c hc => ha c (List.mem_cons_of_mem _ hc))

theorem dropWhile_length_le (p : Char → Bool) (s : Text) :
    (s.dropWhile p).length ≤ s.length :=
  (List.dropWhile_sublist p).length_le

theorem mem_of_mem_dropWhile {p : Char → Bool} {s : Text} {c : Char}
    (h : c ∈ s.dropWhile p) : c ∈ s :=
  (List.dropWhile_sublist p).subset h

theorem mem_of_mem_takeWhile {p : Char → Bool} {s : Text} {c : Char}
    (h : c ∈ s.takeWhile p) : c ∈ s :=
  (List.takeWhile_sublist p).subset h

/-- The head of a dropWhile remainder does not satisfy the class. -/
theorem headNot_dropWhile (p : Char → Bool) (s : Text) :
    HeadNot p (s.dropWhile p) := by
  have h := List.head?_dropWhile_not p s
  rcases hd : s.dropWhile p with _ | ⟨c, cs⟩
  · exact trivial
  · rw [hd] at h
    exact h

/-- Characters inside a takeWhile prefix satisfy the class, hence a
character outside the class never occurs in it. -/
theorem count_takeWhile_zero (p : Char → Bool) (c : Char) (s : Text)
    (hc : p c = false) : List.count c (s.takeWhile p) = 0 := by
  rw [List.count_eq_zero]
  intro h
  have := List.mem_takeWhile_imp h
  rw [hc] at this
  cases this

/-- Splitting a count along the takeWhile and dropWhile parts. -/
theorem count_split (p : Char → Bool) (c : Char) (s : Text) :
    List.count c s = List.count c (s.takeWhile p) + List.count c (s.dropWhile p) := by
  conv_lhs => rw [← List.takeWhile_append_dropWhile p s]
  rw [List.count_append]

/-- Counting a character absent from a run of another class. -/
theorem count_run_zero {c : Char} {s : Text} {p : Char → Bool}
    (hs : ∀ x ∈ s, p x = true) (hc : p c = false) : List.count c s = 0 := by
  rw [List.count_eq_zero]
  intro h
  have := hs c h
  rw [hc] at this
  cases this

/-- Decomposition of a successful numbered-list match: the scanned text
splits into the digit run, the separator, the trailing whitespace and
the unscanned rest, and the replacement has the shape dictated by the
separator. -/
theorem tryListMarker_spec {pointWord s rep r : Text}
    (h : tryListMarker pointWord s = some (rep, r)) :
    ∃ ds sep sp,
      s = ds ++ sep :: (sp ++ r) ∧ AllDigit ds ∧ ds ≠ [] ∧ AllSpace sp ∧
      ((sep = '.' ∧ rep = pointWord ++ ds ++ '.' :: sp) ∨
        (sep = ')' ∧ rep = ds ++ '.' :: sp)) := by
  unfold tryListMarker at h
  split at h
  · exact Option.noConfusion h
  next hlen =>
    have hne : s.takeWhile isPyDigit ≠ [] := by
      intro h0
      exact hlen (Or.inl (by rw [h0]; rfl))
    split at h
    next r2 heq =>
      rw [Option.some.injEq, Prod.mk.injEq] at h
      obtain ⟨hrep, hr⟩ := h
      refine ⟨s.takeWhile isPyDigit, '.', r2.takeWhile isPySpace, ?_,
        fun c hc => List.mem_takeWhile_imp hc, hne,
        fun c hc => List.mem_takeWhile_imp hc, Or.inl ⟨rfl, hrep.symm⟩⟩
      have hr2 : r2.takeWhile isPySpace ++ r = r2 := by
        rw [← hr]
        exact List.takeWhile_append_dropWhile _ _
      calc s = s.takeWhile isPyDigit ++ s.dropWhile isPyDigit :=
            (List.takeWhile_append_dropWhile _ _).symm
        _ = s.takeWhile isPyDigit ++ '.' :: r2 := by rw [heq]
        _ = s.takeWhile isPyDigit ++ '.' :: (r2.takeWhile isPySpace ++ r) := by rw [hr2]
    next r2 heq =>
      rw [Option.some.injEq, Prod.mk.injEq] at h
      obtain ⟨hrep, hr⟩ := h
      refine ⟨s.takeWhile isPyDigit, ')', r2.takeWhile isPySpace, ?_,
        fun c hc => List.mem_takeWhile_imp hc, hne,
        fun c hc => List.mem_takeWhile_imp hc, Or.inr ⟨rfl, hrep.symm⟩⟩
      have hr2 : r2.takeWhile isPySpace ++ r = r2 := by
        rw [← hr]
        exact List.takeWhile_append_dropWhile _ _
      calc s = s.takeWhile isPyDigit ++ s.dropWhile isPyDigit :=
            (List.takeWhile_append_dropWhile _ _).symm
        _ = s.takeWhile isPyDigit ++ ')' :: r2 := by rw [heq]
        _ = s.takeWhile isPyDigit ++ ')' :: (r2.takeWhile isPySpace ++ r) := by rw [hr2]
    · exact Option.noConfusion h

/-- A numbered-list match consumes at least two characters. -/
theorem tryListMarker_some_length {pointWord s rep r : Text}
    (h : tryListMarker pointWord s = some (rep, r)) :
    r.length + 2 ≤ s.length := by
  obtain ⟨ds, sep, sp, hs, _, hne, _, _⟩ := tryListMarker_spec h
  have : 1 ≤ ds.length := by
    cases ds with
    | nil => exact absurd rfl hne
    | cons a l => exact Nat.succ_le_succ (Nat.zero_le _)
  subst hs
  simp [List.length_append]
  omega

/-- A numbered-list replacement preserves the number of occurrences of
any character other than the period, the parenthesis and the
characters of the point phrase. -/
theorem count_tryListMarker {pointWord s rep r : Text} {c : Char}
    (h : tryListMarker pointWord s = some (rep, r))
    (hpw : List.count c pointWord = 0) (hdot : c ≠ '.') (hpar : c ≠ ')') :
    List.count c rep + List.count c r = List.count c s := by
  obtain ⟨ds, sep, sp, hs, _, _, _, hcase⟩ := tryListMarker_spec h
  subst hs
  rcases hcase with ⟨rfl, rfl⟩ | ⟨rfl, rfl⟩ <;>
    simp [List.count_append, List.count_cons, hpw, beq_iff_eq,
      Ne.symm hdot, Ne.symm hpar] <;>
    omega

/-- The numbered-list scanner preserves the number of occurrences of
any character other than the period, the parenthesis and the
characters of the point phrase. -/
theorem count_listScan (pointWord : Text) (c : Char)
    (hpw : List.count c pointWord = 0) (hdot : c ≠ '.') (hpar : c ≠ ')') :
    ∀ fuel s, List.count c (listScan pointWord fuel s) = List.count c s := by
  intro fuel
  induction fuel with
  | zero => intro s; rfl
  | succ f ih =>
    intro s
    rcases s with _ | ⟨x, rest⟩
    · rfl
    · simp only [listScan]
      by_cases hx : x = '\n'
      · rw [if_pos hx]
        rcases htry : tryListMarker pointWord rest with _ | ⟨rep, r⟩
        · simp [List.count_cons, ih]
        · have hc := count_tryListMarker htry hpw hdot hpar
          simp [List.count_cons, List.count_append, ih]
          omega
      · rw [if_neg hx]
        simp [List.count_cons, ih]

/-- The whole numbered-list pass preserves the number of occurrences of
any character other than the period, the parenthesis and the
characters of the point phrase. -/
theorem count_convert_numbered_lists (pointWord : Text) (c : Char) (s : Text)
    (hpw : List.count c pointWord = 0) (hdot : c ≠ '.') (hpar : c ≠ ')') :
    List.count c (convert_numbered_lists pointWord s) = List.count c s := by
  unfold convert_numbered_lists
  rcases htry : tryListMarker pointWord s with _ | ⟨rep, r⟩
  · exact count_listScan pointWord c hpw hdot hpar s.length s
  · have hc := count_tryListMarker htry hpw hdot hpar
    simp [List.count_append, count_listScan pointWord c hpw hdot hpar]
    omega

/-- A period-terminated marker of one to three digits matches at the
current position and yields the point phrase, the digits, the period
and the trailing whitespace. -/
theorem tryListMarker_dot (pointWord ds rest : Text)
    (hne : ds ≠ []) (hlen : ds.length ≤ 3) (hds : AllDigit ds) :
    tryListMarker pointWord (ds ++ '.' :: rest) =
      some (pointWord ++ ds ++ '.' :: rest.takeWhile isPySpace, rest.dropWhile isPySpace) := by
  unfold tryListMarker
  rw [takeWhile_run_append isPyDigit ds ('.' :: rest) hds (headNot_cons (by decide)),
    dropWhile_run_append isPyDigit ds ('.' :: rest) hds (headNot_cons (by decide))]
  rw [if_neg (by push_neg; exact ⟨fun h0 => hne (List.length_eq_zero.mp h0), hlen⟩)]
  rfl

/-- A parenthesis-terminated marker of one to three digits matches at
the current position and yields the digits and a period, with no point
phrase. -/
theorem tryListMarker_paren (pointWord ds rest : Text)
    (hne : ds ≠ []) (hlen : ds.length ≤ 3) (hds : AllDigit ds) :
    tryListMarker pointWord (ds ++ ')' :: rest) =
      some (ds ++ '.' :: rest.takeWhile isPySpace, rest.dropWhile isPySpace) := by
  unfold tryListMarker
  rw [takeWhile_run_append isPyDigit ds (')' :: rest) hds (headNot_cons (by decide)),
    dropWhile_run_append isPyDigit ds (')' :: rest) hds (headNot_cons (by decide))]
  rw [if_neg (by push_neg; exact ⟨fun h0 => hne (List.length_eq_zero.mp h0), hlen⟩)]
  rfl

/-- The numbered-list pass on a period-terminated marker at the start
of the text: the point phrase is prefixed, the digits and the period
are retained verbatim. -/
theorem convert_numbered_lists_dot (pointWord ds rest : Text)
    (hne : ds ≠ []) (hlen : ds.length ≤ 3) (hds : AllDigit ds) :
    convert_numbered_lists pointWord (ds ++ '.' :: rest) =
      pointWord ++ ds ++ '.' :: rest.takeWhile isPySpace ++
        listScan pointWord (rest.dropWhile isPySpace).length (rest.dropWhile isPySpace) := by
  unfold convert_numbered_lists
  rw [tryListMarker_dot pointWord ds rest hne hlen hds]

/-- The numbered-list pass on a parenthesis-terminated marker at the
start of the text: only the parenthesis is replaced by a period, no
point phrase is added. -/
theorem convert_numbered_lists_paren (pointWord ds rest : Text)
    (hne : ds ≠ []) (hlen : ds.length ≤ 3) (hds : AllDigit ds) :
    convert_numbered_lists pointWord (ds ++ ')' :: rest) =
      ds ++ '.' :: rest.takeWhile isPySpace ++
        listScan pointWord (rest.dropWhile isPySpace).length (rest.dropWhile isPySpace) := by
  unfold convert_numbered_lists
  rw [tryListMarker_paren pointWord ds rest hne hlen hds]

/-- Whitespace characters are not word characters. -/
theorem space_not_word {c : Char} (h : isPySpace c = true) : isWordChar c = false := by
  unfold isPySpace at h
  simp only [Bool.or_eq_true, beq_iff_eq] at h
  rcases h with ((((rfl | rfl) | rfl) | rfl) | rfl) | rfl <;> rfl

/-- Word characters are not whitespace. -/
theorem word_not_space {c : Char} (h : isWordChar c = true) : isPySpace c = false := by
  cases hsp : isPySpace c with
  | false => rfl
  | true => rw [space_not_word hsp] at h; cases h

/-- Whitespace characters are not digits. -/
theorem space_not_digit {c : Char} (h : isPySpace c = true) : isPyDigit c = false := by
  unfold isPySpace at h
  simp only [Bool.or_eq_true, beq_iff_eq] at h
  rcases h with ((((rfl | rfl) | rfl) | rfl) | rfl) | rfl <;> rfl

/-- Digits are not whitespace. -/
theorem digit_not_space {c : Char} (h : isPyDigit c = true) : isPySpace c = false := by
  cases hsp : isPySpace c with
  | false => rfl
  | true => rw [space_not_digit hsp] at h; cases h

/-- Bullet glyphs are not whitespace. -/
theorem bullet_not_space {c : Char} (h : isBullet c = true) : isPySpace c = false := by
  unfold isBullet at h
  simp only [Bool.or_eq_true, beq_iff_eq] at h
  rcases h with (((rfl | rfl) | rfl) | rfl) | rfl <;> rfl

/-- Decomposition of a successful equation match: the scanned text
splits into the left word run, inner whitespace, the equals sign,
inner whitespace, the right word run and the unscanned rest. -/
theorem tryEq_spec {eqWord s rep r : Text} (h : tryEq eqWord s = some (rep, r)) :
    ∃ w1 sp1 sp2 w2,
      s = w1 ++ (sp1 ++ '=' :: (sp2 ++ (w2 ++ r))) ∧
      AllWord w1 ∧ w1 ≠ [] ∧ AllSpace sp1 ∧ AllSpace sp2 ∧ AllWord w2 ∧ w2 ≠ [] ∧
      rep = w1 ++ eqWord ++ w2 := by
  unfold tryEq at h
  split at h
  · exact Option.noConfusion h
  next hw1 =>
    split at h
    next r3 heq =>
      split at h
      · exact Option.noConfusion h
      next hw2 =>
        rw [Option.some.injEq, Prod.mk.injEq] at h
        obtain ⟨hrep, hr⟩ := h
        refine ⟨s.takeWhile isWordChar, (s.dropWhile isWordChar).takeWhile isPySpace,
          r3.takeWhile isPySpace, (r3.dropWhile isPySpace).takeWhile isWordChar,
          ?_, fun c hc => List.mem_takeWhile_imp hc,
          fun h0 => hw1 (by rw [h0]; rfl),
          fun c hc => List.mem_takeWhile_imp hc,
          fun c hc => List.mem_takeWhile_imp hc,
          fun c hc => List.mem_takeWhile_imp hc,
          fun h0 => hw2 (by rw [h0]; rfl),
          hrep.symm⟩
        conv_lhs => rw [← List.takeWhile_append_dropWhile isWordChar s,
          ← List.takeWhile_append_dropWhile isPySpace (s.dropWhile isWordChar), heq]
        conv_lhs => rw [← List.takeWhile_append_dropWhile isPySpace r3,
          ← List.takeWhile_append_dropWhile isWordChar (r3.dropWhile isPySpace), hr]
    · exact Option.noConfusion h

/-- An equation match consumes at least three characters. -/
theorem tryEq_some_length {eqWord s rep r : Text}
    (h : tryEq eqWord s = some (rep, r)) : r.length + 3 ≤ s.length := by
  obtain ⟨w1, sp1, sp2, w2, hs, _, hne1, _, _, _, hne2, _⟩ := tryEq_spec h
  have l1 : 1 ≤ w1.length := List.length_pos.mpr hne1
  have l2 : 1 ≤ w2.length := List.length_pos.mpr hne2
  subst hs
  simp [List.length_append]
  omega

/-- An equation replacement preserves the number of occurrences of any
character that is not whitespace, not the equals sign, and absent from
the equals phrase. -/
theorem count_tryEq {eqWord s rep r : Text} {c : Char}
    (h : tryEq eqWord s = some (rep, r)) (hsp : isPySpace c = false)
    (hne : c ≠ '=') (hword : List.count c eqWord = 0) :
    List.count c rep + List.count c r = List.count c s := by
  obtain ⟨w1, sp1, sp2, w2, hs, _, _, hsp1, hsp2, _, _, hrep⟩ := tryEq_spec h
  subst hs
  subst hrep
  simp [List.count_append, List.count_cons, hword, beq_iff_eq, Ne.symm hne,
    count_run_zero hsp1 hsp, count_run_zero hsp2 hsp]
  omega

/-- The equation scanner preserves the number of occurrences of any
character that is not whitespace, not the equals sign, and absent from
the equals phrase. -/
theorem count_eqScan (eqWord : Text) (c : Char) (hsp : isPySpace c = false)
    (hne : c ≠ '=') (hword : List.count c eqWord = 0) :
    ∀ fuel s, List.count c (eqScan eqWord fuel s) = List.count c s := by
  intro fuel
  induction fuel with
  | zero => intro s; rfl
  | succ f ih =>
    intro s
    rcases s with _ | ⟨x, rest⟩
    · rfl
    · simp only [eqScan]
      rcases htry : tryEq eqWord (x :: rest) with _ | ⟨rep, r⟩
      · simp [List.count_cons, ih]
      · have hc := count_tryEq htry hsp hne hword
        simp [List.count_append, ih]
        omega

/-- The equation scanner does not depend on the exact fuel as long as
the fuel covers the length of the scanned text. -/
theorem eqScan_fuel (eqWord : Text) :
    ∀ f1 f2 s, s.length ≤ f1 → s.length ≤ f2 →
      eqScan eqWord f1 s = eqScan eqWord f2 s := by
  intro f1
  induction f1 with
  | zero =>
    intro f2 s h1 _
    have hs : s = [] := List.eq_nil_of_length_eq_zero (Nat.le_zero.mp h1)
    subst hs
    cases f2 <;> rfl
  | succ f ih =>
    intro f2 s h1 h2
    rcases s with _ | ⟨x, rest⟩
    · cases f2 <;> rfl
    · rcases f2 with _ | g
      · simp at h2
      · have hrest1 : rest.length ≤ f := by simp at h1; omega
        have hrest2 : rest.length ≤ g := by simp at h2; omega
        simp only [eqScan]
        rcases htry : tryEq eqWord (x :: rest) with _ | ⟨rep, r⟩
        · dsimp only
          rw [ih g rest hrest1 hrest2]
        · dsimp only
          have hlen := tryEq_some_length htry
          simp only [List.length_cons] at hlen
          rw [ih g r (by omega) (by omega)]

/-- The equation pattern matches at the current position on a word run
followed by optional whitespace, an equals sign, optional whitespace
and a second word run; the whitespace is dropped and the equals phrase
is inserted between the runs. -/
theorem tryEq_run (eqWord w1 sp1 sp2 w2 rest : Text)
    (hw1 : AllWord w1) (hw1ne : w1 ≠ []) (hsp1 : AllSpace sp1) (hsp2 : AllSpace sp2)
    (hw2 : AllWord w2) (hw2ne : w2 ≠ []) (hrest : HeadNot isWordChar rest) :
    tryEq eqWord (w1 ++ (sp1 ++ '=' :: (sp2 ++ (w2 ++ rest)))) =
      some (w1 ++ eqWord ++ w2, rest) := by
  have hb1 : HeadNot isWordChar (sp1 ++ '=' :: (sp2 ++ (w2 ++ rest))) := by
    cases sp1 with
    | nil => exact headNot_cons (by decide)
    | cons a l => exact headNot_cons (space_not_word (hsp1 a (List.mem_cons_self a l)))
  have hb2 : HeadNot isPySpace ('=' :: (sp2 ++ (w2 ++ rest))) := headNot_cons (by decide)
  have hb3 : HeadNot isPySpace (w2 ++ rest) := by
    cases w2 with
    | nil => exact absurd rfl hw2ne
    | cons a l => exact headNot_cons (word_not_space (hw2 a (List.mem_cons_self a l)))
  unfold tryEq
  rw [takeWhile_run_append isWordChar w1 _ hw1 hb1,
    dropWhile_run_append isWordChar w1 _ hw1 hb1,
    dropWhile_run_append isPySpace sp1 _ hsp1 hb2]
  rw [if_neg (by simp [List.length_eq_zero]; exact hw1ne)]
  have e2 : (sp2 ++ (w2 ++ rest)).dropWhile isPySpace = w2 ++ rest :=
    dropWhile_run_append isPySpace sp2 _ hsp2 hb3
  have e3 : (w2 ++ rest).takeWhile isWordChar = w2 :=
    takeWhile_run_append isWordChar w2 rest hw2 hrest
  have e4 : (w2 ++ rest).dropWhile isWordChar = rest :=
    dropWhile_run_append isWordChar w2 rest hw2 hrest
  simp only [e2, e3, e4]
  rw [if_neg (by simp [List.length_eq_zero]; exact hw2ne)]

/-- The equation substitution pass on a leading equation: the left
word run, the equals phrase and the right word run are emitted, the
rest is scanned independently. -/
theorem eqSub_run (eqWord w1 sp1 sp2 w2 rest : Text)
    (hw1 : AllWord w1) (hw1ne : w1 ≠ []) (hsp1 : AllSpace sp1) (hsp2 : AllSpace sp2)
    (hw2 : AllWord w2) (hw2ne : w2 ≠ []) (hrest : HeadNot isWordChar rest) :
    eqSub eqWord (w1 ++ (sp1 ++ '=' :: (sp2 ++ (w2 ++ rest)))) =
      w1 ++ eqWord ++ w2 ++ eqSub eqWord rest := by
  rcases w1 with _ | ⟨a, w1t⟩
  · exact absurd rfl hw1ne
  · unfold eqSub
    have hcons : (a :: w1t) ++ (sp1 ++ '=' :: (sp2 ++ (w2 ++ rest))) =
        a :: (w1t ++ (sp1 ++ '=' :: (sp2 ++ (w2 ++ rest)))) := rfl
    rw [hcons, List.length_cons]
    simp only [eqScan]
    rw [← hcons, tryEq_run eqWord (a :: w1t) sp1 sp2 w2 rest hw1 hw1ne hsp1 hsp2 hw2 hw2ne hrest]
    dsimp only
    have hlen : rest.length ≤ (w1t ++ (sp1 ++ '=' :: (sp2 ++ (w2 ++ rest)))).length := by
      simp [List.length_append]
      omega
    rw [eqScan_fuel eqWord _ rest.length rest hlen (Nat.le_refl _)]

/-- Decomposition of a successful addition match. -/
theorem tryPlus_spec {plusWord s rep r : Text} (h : tryPlus plusWord s = some (rep, r)) :
    ∃ d1 sp1 sp2 d2,
      s = d1 ++ (sp1 ++ '+' :: (sp2 ++ (d2 ++ r))) ∧
      AllDigit d1 ∧ AllSpace sp1 ∧ AllSpace sp2 ∧ AllDigit d2 ∧
      rep = d1 ++ plusWord ++ d2 := by
  unfold tryPlus at h
  split at h
  · exact Option.noConfusion h
  next hd1 =>
    split at h
    next r3 heq =>
      split at h
      · exact Option.noConfusion h
      next hd2 =>
        rw [Option.some.injEq, Prod.mk.injEq] at h
        obtain ⟨hrep, hr⟩ := h
        refine ⟨s.takeWhile isPyDigit, (s.dropWhile isPyDigit).takeWhile isPySpace,
          r3.takeWhile isPySpace, (r3.dropWhile isPySpace).takeWhile isPyDigit,
          ?_, fun c hc => List.mem_takeWhile_imp hc,
          fun c hc => List.mem_takeWhile_imp hc,
          fun c hc => List.mem_takeWhile_imp hc,
          fun c hc => List.mem_takeWhile_imp hc,
          hrep.symm⟩
        conv_lhs => rw [← List.takeWhile_append_dropWhile isPyDigit s,
          ← List.takeWhile_append_dropWhile isPySpace (s.dropWhile isPyDigit), heq]
        conv_lhs => rw [← List.takeWhile_append_dropWhile isPySpace r3,
          ← List.takeWhile_append_dropWhile isPyDigit (r3.dropWhile isPySpace), hr]
    · exact Option.noConfusion h

/-- An addition replacement preserves the number of occurrences of any
character that is not whitespace, not the plus sign, and absent from
the plus phrase. -/
theorem count_tryPlus {plusWord s rep r : Text} {c : Char}
    (h : tryPlus plusWord s = some (rep, r)) (hsp : isPySpace c = false)
    (hne : c ≠ '+') (hword : List.count c plusWord = 0) :
    List.count c rep + List.count c r = List.count c s := by
  obtain ⟨d1, sp1, sp2, d2, hs, _, hsp1, hsp2, _, hrep⟩ := tryPlus_spec h
  subst hs
  subst hrep
  simp [List.count_append, List.count_cons, hword, beq_iff_eq, Ne.symm hne,
    count_run_zero hsp1 hsp, count_run_zero hsp2 hsp]
  omega

/-- The addition scanner preserves the number of occurrences of any
character that is not whitespace, not the plus sign, and absent from
the plus phrase. -/
theorem count_plusScan (plusWord : Text) (c : Char) (hsp : isPySpace c = false)
    (hne : c ≠ '+') (hword : List.count c plusWord = 0) :
    ∀ fuel s, List.count c (plusScan plusWord fuel s) = List.count c s := by
  intro fuel
  induction fuel with
  | zero => intro s; rfl
  | succ f ih =>
    intro s
    rcases s with _ | ⟨x, rest⟩
    · rfl
    · simp only [plusScan]
      rcases htry : tryPlus plusWord (x :: rest) with _ | ⟨rep, r⟩
      · simp [List.count_cons, ih]
      · have hc := count_tryPlus htry hsp hne hword
        simp [List.count_append, ih]
        omega

/-- The spaced standalone equals scanner preserves the number of
occurrences of any character other than the equals sign that is absent
from the equals phrase. -/
theorem count_spacedEqScan (eqWord : Text) (c : Char)
    (hne : c ≠ '=') (hword : List.count c eqWord = 0) :
    ∀ fuel b s, List.count c (spacedEqScan eqWord fuel b s) = List.count c s := by
  intro fuel
  induction fuel with
  | zero => intro b s; rfl
  | succ f ih =>
    intro b s
    rcases s with _ | ⟨x, rest⟩
    · rfl
    · simp only [spacedEqScan]
      by_cases hcond : (x == '=' && b && headSpace rest) = true
      · rw [if_pos hcond]
        have hx : x = '=' := by
          simp only [Bool.and_eq_true, beq_iff_eq] at hcond
          exact hcond.1.1
        subst hx
        simp [List.count_append, List.count_cons, hword, ih, beq_iff_eq, Ne.symm hne]
      · rw [if_neg hcond]
        simp [List.count_cons, ih]

/-- The percentage scanner preserves the number of occurrences of any
character other than the percent sign that is absent from the percent
phrase. -/
theorem count_percentScan (percentWord : Text) (c : Char)
    (hne : c ≠ '%') (hword : List.count c percentWord = 0) :
    ∀ fuel s, List.count c (percentScan percentWord fuel s) = List.count c s := by
  intro fuel
  induction fuel with
  | zero => intro s; rfl
  | succ f ih =>
    intro s
    rcases s with _ | ⟨x, rest⟩
    · rfl
    · simp only [percentScan]
      by_cases hx : isPyDigit x = true
      · rw [if_pos hx]
        split
        next r2 heq =>
          have hsplit := count_split isPyDigit c (x :: rest)
          rw [heq] at hsplit
          simp only [List.count_append, List.count_cons] at hsplit ⊢
          rw [ih, hword]
          simp only [beq_iff_eq] at hsplit ⊢
          rw [if_neg (Ne.symm hne)] at hsplit
          omega
        next =>
          simp [List.count_cons, ih]
      · rw [if_neg hx]
        simp [List.count_cons, ih]

/-- A successful literal match means the text starts with the
pattern. -/
theorem matchesAt_append {pat s : Text} (h : matchesAt pat s = true) :
    s = pat ++ s.drop pat.length := by
  induction pat generalizing s with
  | nil => simp
  | cons p ps ih =>
    cases s with
    | nil => simp [matchesAt] at h
    | cons c cs =>
      simp only [matchesAt, Bool.and_eq_true, beq_iff_eq] at h
      obtain ⟨rfl, h2⟩ := h
      simp only [List.length_cons, List.drop_succ_cons, List.cons_append, List.cons.injEq,
        true_and]
      exact ih h2

/-- The literal replacement scanner preserves the number of
occurrences of any character absent from both the pattern and the
replacement. -/
theorem count_replaceScan (pat rep : Text) (c : Char)
    (hpat : List.count c pat = 0) (hrep : List.count c rep = 0) :
    ∀ fuel s, List.count c (replaceScan pat rep fuel s) = List.count c s := by
  intro fuel
  induction fuel with
  | zero => intro s; rfl
  | succ f ih =>
    intro s
    rcases s with _ | ⟨x, rest⟩
    · rfl
    · simp only [replaceScan]
      by_cases hcond : (pat.isEmpty = false && matchesAt pat (x :: rest)) = true
      · rw [if_pos hcond]
        simp only [Bool.and_eq_true, decide_eq_true_eq] at hcond
        have hm := matchesAt_append hcond.2
        rw [List.count_append, hrep, ih]
        conv_rhs => rw [hm]
        rw [List.count_append, hpat]
      · rw [if_neg hcond]
        simp [List.count_cons, ih]

/-- Decomposition of a successful ampersand match. -/
theorem tryAmp_spec {andWord s rep r : Text} (h : tryAmp andWord s = some (rep, r)) :
    ∃ sp1 r2, s = sp1 ++ '&' :: r2 ∧ AllSpace sp1 ∧
      r = r2.dropWhile isPySpace ∧ rep = andWord := by
  unfold tryAmp at h
  split at h
  · exact Option.noConfusion h
  · split at h
    next r2 heq =>
      split at h
      · exact Option.noConfusion h
      · rw [Option.some.injEq, Prod.mk.injEq] at h
        obtain ⟨hrep, hr⟩ := h
        refine ⟨s.takeWhile isPySpace, r2, ?_,
          fun c hc => List.mem_takeWhile_imp hc, hr.symm, hrep.symm⟩
        conv_lhs => rw [← List.takeWhile_append_dropWhile isPySpace s, heq]
    · exact Option.noConfusion h

/-- An ampersand replacement preserves the number of occurrences of
any character that is not whitespace, not the ampersand, and absent
from the and phrase. -/
theorem count_tryAmp {andWord s rep r : Text} {c : Char}
    (h : tryAmp andWord s = some (rep, r)) (hsp : isPySpace c = false)
    (hne : c ≠ '&') (hword : List.count c andWord = 0) :
    List.count c rep + List.count c r = List.count c s := by
  obtain ⟨sp1, r2, hs, hsp1, hr, hrep⟩ := tryAmp_spec h
  subst hs
  subst hr
  subst hrep
  have h2 := count_split isPySpace c r2
  rw [count_takeWhile_zero isPySpace c r2 hsp] at h2
  simp [List.count_append, List.count_cons, hword, beq_iff_eq, Ne.symm hne,
    count_run_zero hsp1 hsp]
  omega

/-- The ampersand scanner preserves the number of occurrences of any
character that is not whitespace, not the ampersand, and absent from
the and phrase. -/
theorem count_ampScan (andWord : Text) (c : Char) (hsp : isPySpace c = false)
    (hne : c ≠ '&') (hword : List.count c andWord = 0) :
    ∀ fuel s, List.count c (ampScan andWord fuel s) = List.count c s := by
  intro fuel
  induction fuel with
  | zero => intro s; rfl
  | succ f ih =>
    intro s
    rcases s with _ | ⟨x, rest⟩
    · rfl
    · simp only [ampScan]
      rcases htry : tryAmp andWord (x :: rest) with _ | ⟨rep, r⟩
      · simp [List.count_cons, ih]
      · have hc := count_tryAmp htry hsp hne hword
        simp [List.count_append, ih]
        omega

/-- A successful amount match is a split of the scanned text, with a
non-empty amount. -/
theorem tryAmount_spec {s a r : Text} (h : tryAmount s = some (a, r)) :
    a ++ r = s ∧ a ≠ [] := by
  unfold tryAmount at h
  split at h
  · exact Option.noConfusion h
  next hlen =>
    have hne : s.takeWhile isPyDigit ≠ [] := fun h0 => hlen (by rw [h0]; rfl)
    split at h
    next d1 d2 r2 heq =>
      split at h
      · rw [Option.some.injEq, Prod.mk.injEq] at h
        obtain ⟨ha, hr⟩ := h
        subst ha
        subst hr
        constructor
        · conv_rhs => rw [← List.takeWhile_append_dropWhile isPyDigit s, heq]
          simp
        · simp [hne]
      · rw [Option.some.injEq, Prod.mk.injEq] at h
        obtain ⟨ha, hr⟩ := h
        subst ha
        subst hr
        exact ⟨List.takeWhile_append_dropWhile _ _, hne⟩
    next =>
      rw [Option.some.injEq, Prod.mk.injEq] at h
      obtain ⟨ha, hr⟩ := h
      subst ha
      subst hr
      exact ⟨List.takeWhile_append_dropWhile _ _, hne⟩

/-- The currency scanner preserves the number of occurrences of any
character other than the currency symbol that is absent from the
currency phrase. -/
theorem count_currencyScan (sym : Char) (word : Text) (c : Char)
    (hne : c ≠ sym) (hword : List.count c word = 0) :
    ∀ fuel s, List.count c (currencyScan sym word fuel s) = List.count c s := by
  intro fuel
  induction fuel with
  | zero => intro s; rfl
  | succ f ih =>
    intro s
    rcases s with _ | ⟨x, rest⟩
    · rfl
    · simp only [currencyScan]
      by_cases hx : x = sym
      · rw [if_pos hx]
        rcases htry : tryAmount rest with _ | ⟨a, r⟩
        · simp [List.count_cons, ih]
        · obtain ⟨hsplit, _⟩ := tryAmount_spec htry
          subst hx
          have : List.count c rest = List.count c a + List.count c r := by
            rw [← hsplit, List.count_append]
          simp [List.count_append, List.count_cons, hword, ih, beq_iff_eq, Ne.symm hne]
          omega
      · rw [if_neg hx]
        simp [List.count_cons, ih]

/-- The issue-number scanner preserves the number of occurrences of
any character other than the hash sign that is absent from the number
phrase. -/
theorem count_hashScan (numberWord : Text) (c : Char)
    (hne : c ≠ '#') (hword : List.count c numberWord = 0) :
    ∀ fuel s, List.count c (hashScan numberWord fuel s) = List.count c s := by
  intro fuel
  induction fuel with
  | zero => intro s; rfl
  | succ f ih =>
    intro s
    rcases s with _ | ⟨x, rest⟩
    · rfl
    · simp only [hashScan]
      by_cases hx : x = '#'
      · rw [if_pos hx]
        subst hx
        by_cases hds : (rest.takeWhile isPyDigit).length = 0
        · rw [if_pos hds]
          simp [List.count_cons, ih, beq_iff_eq, Ne.symm hne]
        · rw [if_neg hds]
          have hsplit := count_split isPyDigit c rest
          simp [List.count_append, List.count_cons, hword, ih, beq_iff_eq, Ne.symm hne]
          omega
      · rw [if_neg hx]
        simp [List.count_cons, ih]

/-- Decomposition of a successful bullet match: leading whitespace, a
glyph and trailing whitespace are consumed. -/
theorem tryBullet_spec {s r : Text} (h : tryBullet s = some r) :
    ∃ sp1 g r2, s = sp1 ++ g :: r2 ∧ AllSpace sp1 ∧ isBullet g = true ∧
      r = r2.dropWhile isPySpace := by
  unfold tryBullet at h
  split at h
  next g r2 heq =>
    split at h
    next hg =>
      rw [Option.some.injEq] at h
      refine ⟨s.takeWhile isPySpace, g, r2, ?_,
        fun c hc => List.mem_takeWhile_imp hc, hg, h.symm⟩
      conv_lhs => rw [← List.takeWhile_append_dropWhile isPySpace s, heq]
    next => exact Option.noConfusion h
  · exact Option.noConfusion h

/-- A bullet match shortens the text. -/
theorem tryBullet_some_length {s r : Text} (h : tryBullet s = some r) :
    r.length < s.length := by
  obtain ⟨sp1, g, r2, hs, _, _, hr⟩ := tryBullet_spec h
  subst hs
  subst hr
  have := dropWhile_length_le isPySpace r2
  simp [List.length_append]
  omega

/-- A bullet deletion preserves the number of occurrences of any
character that is neither whitespace nor a bullet glyph. -/
theorem count_tryBullet {s r : Text} {c : Char} (h : tryBullet s = some r)
    (hsp : isPySpace c = false) (hgl : isBullet c = false) :
    List.count c r = List.count c s := by
  obtain ⟨sp1, g, r2, hs, hsp1, hg, hr⟩ := tryBullet_spec h
  subst hs
  subst hr
  have hgc : g ≠ c := by
    intro h0
    rw [h0, hgl] at hg
    cases hg
  have h2 := count_split isPySpace c r2
  rw [count_takeWhile_zero isPySpace c r2 hsp] at h2
  simp [List.count_append, List.count_cons, count_run_zero hsp1 hsp, beq_iff_eq, hgc]
  omega

/-- The bullet scanner preserves the number of occurrences of any
character that is neither whitespace nor a bullet glyph. -/
theorem count_bulletScan (c : Char) (hsp : isPySpace c = false)
    (hgl : isBullet c = false) :
    ∀ fuel s, List.count c (bulletScan fuel s) = List.count c s := by
  intro fuel
  induction fuel with
  | zero => intro s; rfl
  | succ f ih =>
    intro s
    rcases s with _ | ⟨x, rest⟩
    · rfl
    · simp only [bulletScan]
      by_cases hx : x = '\n'
      · rw [if_pos hx]
        rcases htry : tryBullet rest with _ | r
        · simp [List.count_cons, ih]
        · have hc := count_tryBullet htry hsp hgl
          simp [List.count_cons, ih, hc]
      · rw [if_neg hx]
        simp [List.count_cons, ih]

/-- The bullet deletion pass preserves the number of occurrences of
any character that is neither whitespace nor a bullet glyph. -/
theorem count_bulletSub (c : Char) (s : Text) (hsp : isPySpace c = false)
    (hgl : isBullet c = false) :
    List.count c (bulletSub s) = List.count c s := by
  unfold bulletSub
  rcases htry : tryBullet s with _ | r
  · exact count_bulletScan c hsp hgl s.length s
  · rw [count_bulletScan c hsp hgl r.length r, count_tryBullet htry hsp hgl]

/-- A blocked head makes the takeWhile prefix empty. -/
theorem takeWhile_eq_nil_of_headNot {p : Char → Bool} {s : Text}
    (h : HeadNot p s) : s.takeWhile p = [] := by
  cases s with
  | nil => rfl
  | cons c cs =>
    have hc : p c = false := h
    simp [List.takeWhile_cons, hc]

/-- A blocked head makes the dropWhile remainder the whole text. -/
theorem dropWhile_eq_self_of_headNot {p : Char → Bool} {s : Text}
    (h : HeadNot p s) : s.dropWhile p = s := by
  cases s with
  | nil => rfl
  | cons c cs =>
    have hc : p c = false := h
    simp [List.dropWhile_cons, hc]

/-- The bullet tail pattern fails when the first character after the
optional whitespace is not a glyph. -/
theorem tryBullet_none_of_no_glyph {s : Text} (h : GlyphFree s) :
    tryBullet s = none := by
  unfold tryBullet
  split
  next g r2 heq =>
    have hg : g ∈ s := by
      have : g ∈ s.dropWhile isPySpace := by rw [heq]; exact List.mem_cons_self g r2
      exact mem_of_mem_dropWhile this
    rw [if_neg ?_]
    rw [h g hg]
    simp
  · rfl

/-- The bullet scanner leaves a glyph-free text unchanged, with any
fuel. -/
theorem bulletScan_no_glyph : ∀ fuel (s : Text), GlyphFree s → bulletScan fuel s = s := by
  intro fuel
  induction fuel with
  | zero => intro s _; rfl
  | succ f ih =>
    intro s hs
    rcases s with _ | ⟨x, rest⟩
    · rfl
    · have hrest : GlyphFree rest := fun c hc => hs c (List.mem_cons_of_mem _ hc)
      simp only [bulletScan]
      by_cases hx : x = '\n'
      · rw [if_pos hx, tryBullet_none_of_no_glyph hrest]
        rw [ih rest hrest]
      · rw [if_neg hx, ih rest hrest]

/-- The bullet tail pattern matches whitespace, a glyph and trailing
whitespace, and consumes all three parts. -/
theorem tryBullet_run (ws ws2 rest : Text) (g : Char)
    (hws : AllSpace ws) (hg : isBullet g = true) (hws2 : AllSpace ws2)
    (hrest : HeadNot isPySpace rest) :
    tryBullet (ws ++ g :: (ws2 ++ rest)) = some rest := by
  have hgns : isPySpace g = false := bullet_not_space hg
  unfold tryBullet
  rw [dropWhile_run_append isPySpace ws (g :: (ws2 ++ rest)) hws (headNot_cons hgns)]
  dsimp only
  rw [if_pos hg, dropWhile_run_append isPySpace ws2 rest hws2 hrest]

/-- The cleanup scanner preserves the number of occurrences of any
character other than the space. -/
theorem count_collapseScan (c : Char) (hne : c ≠ ' ') :
    ∀ fuel s, List.count c (collapseScan fuel s) = List.count c s := by
  intro fuel
  induction fuel with
  | zero => intro s; rfl
  | succ f ih =>
    intro s
    rcases s with _ | ⟨x, rest⟩
    · rfl
    · simp only [collapseScan]
      by_cases hcond : (x == ' ' && headIs ' ' rest) = true
      · rw [if_pos hcond]
        have hx : x = ' ' := by
          simp only [Bool.and_eq_true, beq_iff_eq] at hcond
          exact hcond.1
        subst hx
        have h2 := count_split (fun a => a == ' ') c rest
        rw [count_takeWhile_zero (fun a => a == ' ') c rest
          (by simp only [beq_eq_false_iff_ne, ne_eq]; exact hne)] at h2
        simp [List.count_cons, ih, beq_iff_eq, Ne.symm hne]
        omega
      · rw [if_neg hcond]
        simp [List.count_cons, ih]

/-- Unfolding equation of the double-space test. -/
theorem hasDoubleSpace_cons (x : Char) (t : Text) :
    hasDoubleSpace (x :: t) = ((x == ' ' && headIs ' ' t) || hasDoubleSpace t) := by
  cases t <;> simp [hasDoubleSpace, headIs]

/-- A blocked head has a false head test. -/
theorem headIs_false_of_headNot {s : Text}
    (h : HeadNot (fun a => a == ' ') s) : headIs ' ' s = false := by
  cases s with
  | nil => rfl
  | cons c cs => exact h

/-- The cleanup scanner does not change the first character. -/
theorem headIs_collapseScan (x : Char) :
    ∀ fuel s, headIs x (collapseScan fuel s) = headIs x s := by
  intro fuel s
  cases fuel with
  | zero => rfl
  | succ f =>
    cases s with
    | nil => rfl
    | cons c rest =>
      simp only [collapseScan]
      by_cases hcond : (c == ' ' && headIs ' ' rest) = true
      · rw [if_pos hcond]
        have hc : c = ' ' := by
          simp only [Bool.and_eq_true, beq_iff_eq] at hcond
          exact hcond.1
        subst hc
        rfl
      · rw [if_neg hcond]
        rfl

/-- With enough fuel, the output of the cleanup scanner never contains
two adjacent spaces. -/
theorem collapseScan_noDouble :
    ∀ fuel (s : Text), s.length ≤ fuel → hasDoubleSpace (collapseScan fuel s) = false := by
  intro fuel
  induction fuel with
  | zero =>
    intro s h
    have hs : s = [] := List.eq_nil_of_length_eq_zero (Nat.le_zero.mp h)
    subst hs
    rfl
  | succ f ih =>
    intro s h
    rcases s with _ | ⟨x, rest⟩
    · rfl
    · simp only [collapseScan]
      by_cases hcond : (x == ' ' && headIs ' ' rest) = true
      · rw [if_pos hcond]
        have hd : (rest.dropWhile (fun a => a == ' ')).length ≤ f := by
          have h1 := dropWhile_length_le (fun a => a == ' ') rest
          simp only [List.length_cons] at h
          omega
        have hhead : headIs ' ' (collapseScan f (rest.dropWhile (fun a => a == ' '))) = false := by
          rw [headIs_collapseScan]
          exact headIs_false_of_headNot (headNot_dropWhile (fun a => a == ' ') rest)
        rw [hasDoubleSpace_cons]
        simp [hhead, ih _ hd]
      · rw [if_neg hcond]
        have hc2 : (x == ' ' && headIs ' ' rest) = false := by
          cases h2 : (x == ' ' && headIs ' ' rest) with
          | false => rfl
          | true => exact absurd h2 hcond
        have hih := ih rest (by simp only [List.length_cons] at h; omega)
        rw [hasDoubleSpace_cons]
        rw [headIs_collapseScan, hih, hc2]
        rfl

/-- The cleanup pass never leaves two adjacent spaces. -/
theorem collapseSpaces_noDouble (s : Text) :
    hasDoubleSpace (collapseSpaces s) = false :=
  collapseScan_noDouble s.length s (Nat.le_refl _)

/-- A text whose last character is not whitespace does not vanish
under dropWhile. -/
theorem dropWhile_ne_nil_of_last {s : Text} (hne : s ≠ [])
    (hlast : ∀ c, s.getLast? = some c → isPySpace c = false) :
    s.dropWhile isPySpace ≠ [] := by
  intro h0
  rw [List.dropWhile_eq_nil_iff] at h0
  rcases List.eq_nil_or_concat s with rfl | ⟨L, b, rfl⟩
  · exact hne rfl
  · have hb : isPySpace b = false := hlast b (by simp)
    have := h0 b (by simp)
    rw [hb] at this
    cases this

/-- The bullet tail pattern fails at a position from which the first
reachable non-whitespace character lies inside a glyph-free block. -/
theorem tryBullet_none_of_blocked {a : Text} (b : Text)
    (hne : a.dropWhile isPySpace ≠ []) (hgl : GlyphFree a) :
    tryBullet (a ++ b) = none := by
  obtain ⟨g, gs, hd⟩ : ∃ g gs, a.dropWhile isPySpace = g :: gs := by
    rcases hcase : a.dropWhile isPySpace with _ | ⟨g, gs⟩
    · exact absurd hcase hne
    · exact ⟨g, gs, rfl⟩
  have hg : g ∈ a := mem_of_mem_dropWhile (by rw [hd]; exact List.mem_cons_self g gs)
  unfold tryBullet
  rw [List.dropWhile_append,
    if_neg (by simp only [List.isEmpty_iff]; exact hne), hd, List.cons_append]
  dsimp only
  rw [hgl g hg]
  rfl

/-- The bullet scanner walks unchanged through a glyph-free prefix
that ends in a non-whitespace character, deletes the indented glyph
after the following newline together with the surrounding whitespace,
and leaves the glyph-free remainder unchanged. -/
theorem bulletScan_through (ws ws2 rest : Text) (g : Char)
    (hws : AllSpace ws) (hg : isBullet g = true) (hws2 : AllSpace ws2)
    (hrest : HeadNot isPySpace rest) (hrfree : GlyphFree rest) :
    ∀ (pre : Text) fuel, (pre ++ '\n' :: (ws ++ g :: (ws2 ++ rest))).length ≤ fuel →
      GlyphFree pre → pre ≠ [] →
      (∀ c, pre.getLast? = some c → isPySpace c = false) →
      bulletScan fuel (pre ++ '\n' :: (ws ++ g :: (ws2 ++ rest))) =
        pre ++ '\n' :: rest := by
  intro pre
  induction pre with
  | nil => intro fuel _ _ hne _; exact absurd rfl hne
  | cons x xs ih =>
    intro fuel hfuel hfree hne hlast
    rcases fuel with _ | f
    · simp at hfuel
    · rw [List.cons_append]
      simp only [bulletScan]
      have hfuel2 : (xs ++ '\n' :: (ws ++ g :: (ws2 ++ rest))).length ≤ f := by
        rw [List.cons_append] at hfuel
        simp only [List.length_cons] at hfuel
        omega
      by_cases hx : x = '\n'
      · rw [if_pos hx]
        rcases xs with _ | ⟨y, ys⟩
        · exfalso
          have hl := hlast x (by rfl)
          rw [hx] at hl
          have : isPySpace '\n' = true := by decide
          rw [this] at hl
          cases hl
        · have hblock : tryBullet ((y :: ys) ++ '\n' :: (ws ++ g :: (ws2 ++ rest))) = none := by
            apply tryBullet_none_of_blocked
            · apply dropWhile_ne_nil_of_last (by simp)
              intro c hc
              apply hlast c
              rw [List.getLast?_cons_cons]
              exact hc
            · exact fun c hc => hfree c (List.mem_cons_of_mem _ hc)
          rw [hblock]
          rw [ih f hfuel2 (fun c hc => hfree c (List.mem_cons_of_mem _ hc)) (by simp)
            (fun c hc => hlast c (by rw [List.getLast?_cons_cons]; exact hc))]
          rfl
      · rw [if_neg hx]
        rcases xs with _ | ⟨y, ys⟩
        · rcases f with _ | f2
          · simp at hfuel2
          · simp only [List.nil_append]
            simp only [bulletScan, if_pos rfl]
            rw [tryBullet_run ws ws2 rest g hws hg hws2 hrest]
            dsimp only
            rw [bulletScan_no_glyph f2 rest hrfree]
            simp
        · rw [ih f hfuel2 (fun c hc => hfree c (List.mem_cons_of_mem _ hc)) (by simp)
            (fun c hc => hlast c (by rw [List.getLast?_cons_cons]; exact hc))]
          rfl

/-- The bullet deletion pass deletes a glyph preceded only by
whitespace at the start of the text, together with the whitespace
before and after it, leaving the glyph-free remainder unchanged. -/
theorem bulletSub_start (ws ws2 rest : Text) (g : Char)
    (hws : AllSpace ws) (hg : isBullet g = true) (hws2 : AllSpace ws2)
    (hrest : HeadNot isPySpace rest) (hrfree : GlyphFree rest) :
    bulletSub (ws ++ g :: (ws2 ++ rest)) = rest := by
  unfold bulletSub
  rw [tryBullet_run ws ws2 rest g hws hg hws2 hrest]
  dsimp only
  exact bulletScan_no_glyph rest.length rest hrfree

/-- The bullet deletion pass deletes an indented glyph after a newline
together with the whitespace before and after it, when the prefix
before the newline is glyph-free and ends in a non-whitespace
character. -/
theorem bulletSub_newline (pre ws ws2 rest : Text) (g : Char)
    (hpre : GlyphFree pre) (hne : pre ≠ [])
    (hlast : ∀ c, pre.getLast? = some c → isPySpace c = false)
    (hws : AllSpace ws) (hg : isBullet g = true) (hws2 : AllSpace ws2)
    (hrest : HeadNot isPySpace rest) (hrfree : GlyphFree rest) :
    bulletSub (pre ++ '\n' :: (ws ++ g :: (ws2 ++ rest))) = pre ++ '\n' :: rest := by
  unfold bulletSub
  rw [tryBullet_none_of_blocked _ (dropWhile_ne_nil_of_last hne hlast) hpre]
  dsimp only
  exact bulletScan_through ws ws2 rest g hws hg hws2 hrest hrfree pre _ (Nat.le_refl _)
    hpre hne hlast

/-- The amount pattern fails when the first character is not a
digit. -/
theorem tryAmount_none_of_headNot {s : Text} (h : HeadNot isPyDigit s) :
    tryAmount s = none := by
  unfold tryAmount
  rw [if_pos (by rw [takeWhile_eq_nil_of_headNot h]; rfl)]

/-- A successful amount match shortens the text. -/
theorem tryAmount_some_length {s a r : Text} (h : tryAmount s = some (a, r)) :
    r.length < s.length := by
  obtain ⟨hsplit, hne⟩ := tryAmount_spec h
  have : 1 ≤ a.length := List.length_pos.mpr hne
  rw [← hsplit, List.length_append]
  omega

/-- The currency scanner does not depend on the exact fuel as long as
the fuel covers the length of the scanned text. -/
theorem currencyScan_fuel (sym : Char) (word : Text) :
    ∀ f1 f2 s, s.length ≤ f1 → s.length ≤ f2 →
      currencyScan sym word f1 s = currencyScan sym word f2 s := by
  intro f1
  induction f1 with
  | zero =>
    intro f2 s h1 _
    have hs : s = [] := List.eq_nil_of_length_eq_zero (Nat.le_zero.mp h1)
    subst hs
    cases f2 <;> rfl
  | succ f ih =>
    intro f2 s h1 h2
    rcases s with _ | ⟨x, rest⟩
    · cases f2 <;> rfl
    · rcases f2 with _ | g
      · simp at h2
      · have hrest1 : rest.length ≤ f := by simp at h1; omega
        have hrest2 : rest.length ≤ g := by simp at h2; omega
        simp only [currencyScan]
        by_cases hx : x = sym
        · rw [if_pos hx, if_pos hx]
          rcases htry : tryAmount rest with _ | ⟨a, r⟩
          · dsimp only
            rw [ih g rest hrest1 hrest2]
          · dsimp only
            have hlen := tryAmount_some_length htry
            rw [ih g r (by omega) (by omega)]
        · rw [if_neg hx, if_neg hx, ih g rest hrest1 hrest2]

/-- The amount pattern on a digit run followed by a decimal point and
two digits takes the run, the point and exactly the two digits. -/
theorem tryAmount_decimal (ds r2 : Text) (d1 d2 : Char)
    (hne : ds ≠ []) (hds : AllDigit ds) (hd1 : isPyDigit d1 = true)
    (hd2 : isPyDigit d2 = true) :
    tryAmount (ds ++ '.' :: d1 :: d2 :: r2) = some (ds ++ '.' :: d1 :: d2 :: [], r2) := by
  unfold tryAmount
  rw [takeWhile_run_append isPyDigit ds _ hds (headNot_cons (by decide)),
    dropWhile_run_append isPyDigit ds _ hds (headNot_cons (by decide))]
  rw [if_neg (by simp only [List.length_eq_zero]; exact hne)]
  split
  next x a b r heq =>
    obtain ⟨rfl, rfl, rfl⟩ : d1 = a ∧ d2 = b ∧ r2 = r := by simpa using heq
    rw [if_pos (by rw [hd1, hd2]; rfl)]
  next x h => exact absurd rfl (h d1 d2 r2)

/-- The amount pattern on a digit run not followed by a two-digit
decimal part takes exactly the run. -/
theorem tryAmount_plain (ds rest : Text) (hne : ds ≠ []) (hds : AllDigit ds)
    (hhead : HeadNot isPyDigit rest)
    (hnodec : ∀ d1 d2 r2, rest = '.' :: d1 :: d2 :: r2 →
      (isPyDigit d1 && isPyDigit d2) = false) :
    tryAmount (ds ++ rest) = some (ds, rest) := by
  unfold tryAmount
  rw [takeWhile_run_append isPyDigit ds rest hds hhead,
    dropWhile_run_append isPyDigit ds rest hds hhead]
  rw [if_neg (by simp only [List.length_eq_zero]; exact hne)]
  split
  next x a b r =>
    rw [hnodec a b r rfl]
    rfl
  next => rfl

/-- The currency pass on a symbol followed by a plain digit amount:
the symbol is dropped, the digits are kept, the currency phrase is
appended, and the rest is scanned independently. -/
theorem currencySub_plain (sym : Char) (word ds rest : Text)
    (hne : ds ≠ []) (hds : AllDigit ds) (hhead : HeadNot isPyDigit rest)
    (hnodec : ∀ d1 d2 r2, rest = '.' :: d1 :: d2 :: r2 →
      (isPyDigit d1 && isPyDigit d2) = false) :
    currencySub sym word (sym :: (ds ++ rest)) =
      ds ++ word ++ currencySub sym word rest := by
  unfold currencySub
  simp only [List.length_cons]
  simp only [currencyScan, if_pos rfl]
  rw [tryAmount_plain ds rest hne hds hhead hnodec]
  dsimp only
  rw [currencyScan_fuel sym word (ds ++ rest).length rest.length rest
    (by simp only [List.length_append]; omega) (Nat.le_refl _)]
  rw [if_pos trivial]

/-- The currency pass on a symbol followed by a decimal amount with
exactly two decimal digits: the symbol is dropped, the amount is kept,
the currency phrase is appended, and the rest is scanned
independently. -/
theorem currencySub_decimal (sym : Char) (word ds r2 : Text) (d1 d2 : Char)
    (hne : ds ≠ []) (hds : AllDigit ds) (hd1 : isPyDigit d1 = true)
    (hd2 : isPyDigit d2 = true) :
    currencySub sym word (sym :: (ds ++ '.' :: d1 :: d2 :: r2)) =
      (ds ++ '.' :: d1 :: d2 :: []) ++ word ++ currencySub sym word r2 := by
  unfold currencySub
  simp only [List.length_cons]
  simp only [currencyScan, if_pos rfl]
  rw [tryAmount_decimal ds r2 d1 d2 hne hds hd1 hd2]
  dsimp only
  rw [currencyScan_fuel sym word (ds ++ '.' :: d1 :: d2 :: r2).length r2.length r2
    (by simp only [List.length_append, List.length_cons]; omega) (Nat.le_refl _)]
  rw [if_pos trivial]

/-- A currency symbol not followed by a digit is left untouched. -/
theorem currencySub_noamount (sym : Char) (word rest : Text)
    (hhead : HeadNot isPyDigit rest) :
    currencySub sym word (sym :: rest) = sym :: currencySub sym word rest := by
  unfold currencySub
  simp only [List.length_cons]
  simp only [currencyScan, if_pos rfl]
  rw [tryAmount_none_of_headNot hhead]
  rw [if_pos trivial]

/-- Counting a character in a singleton of another character. -/
theorem count_one {c a : Char} (h : c ≠ a) : List.count c [a] = 0 := by
  simp [List.count_cons, beq_iff_eq, Ne.symm h]

/-- Counting a character in a pair of other characters. -/
theorem count_two {c a b : Char} (h1 : c ≠ a) (h2 : c ≠ b) :
    List.count c [a, b] = 0 := by
  simp [List.count_cons, beq_iff_eq, Ne.symm h1, Ne.symm h2]

/-- The math pass preserves the number of occurrences of any character
outside its operator alphabet whose localized phrases avoid the
character. -/
theorem count_convert_math (m : SymbolMap) (c : Char) (s : Text)
    (hsp : isPySpace c = false)
    (hge : List.count c m.greater_or_equal = 0) (hle : List.count c m.less_or_equal = 0)
    (hnq : List.count c m.not_equal = 0) (heq : List.count c m.equals = 0)
    (hpl : List.count c m.plus = 0) (hpc : List.count c m.percent = 0)
    (h1 : c ≠ '>') (h2 : c ≠ '<') (h3 : c ≠ '!') (h4 : c ≠ '=')
    (h5 : c ≠ '+') (h6 : c ≠ '%') :
    List.count c (convert_math_expressions m s) = List.count c s := by
  unfold convert_math_expressions str_replace eqSub spacedEqSub plusSub percentSub
  rw [count_percentScan m.percent c h6 hpc,
    count_plusScan m.plus c hsp h5 hpl,
    count_spacedEqScan m.equals c h4 heq,
    count_eqScan m.equals c hsp h4 heq,
    count_replaceScan "==".toList m.equals c
      (by show List.count c ['=', '='] = 0; exact count_two h4 h4) heq,
    count_replaceScan "!=".toList m.not_equal c
      (by show List.count c ['!', '='] = 0; exact count_two h3 h4) hnq,
    count_replaceScan "<=".toList m.less_or_equal c
      (by show List.count c ['<', '='] = 0; exact count_two h2 h4) hle,
    count_replaceScan ">=".toList m.greater_or_equal c
      (by show List.count c ['>', '='] = 0; exact count_two h1 h4) hge]

/-- The standalone pass preserves the number of occurrences of any
character outside its symbol alphabet whose localized phrases avoid
the character. -/
theorem count_convert_standalone (m : SymbolMap) (c : Char) (s : Text)
    (hsp : isPySpace c = false) (hbul : isBullet c = false)
    (hdol : List.count c m.dollars = 0) (heur : List.count c m.euros = 0)
    (hpou : List.count c m.pounds = 0) (hrub : List.count c m.rubles = 0)
    (hand : List.count c m.and_word = 0) (hnum : List.count c m.number = 0)
    (harr : List.count c m.arrow = 0)
    (h1 : c ≠ '$') (h2 : c ≠ '€') (h3 : c ≠ '£') (h4 : c ≠ '₽')
    (h5 : c ≠ '&') (h6 : c ≠ '#') (h7 : c ≠ '→') (h8 : c ≠ '←')
    (h9 : c ≠ '-') (h10 : c ≠ '>') (h11 : c ≠ '<') :
    List.count c (convert_standalone_symbols m s) = List.count c s := by
  unfold convert_standalone_symbols str_replace currencySub ampSub hashSub
  rw [count_replaceScan "<-".toList m.arrow c
      (by show List.count c ['<', '-'] = 0; exact count_two h11 h9) harr,
    count_replaceScan "->".toList m.arrow c
      (by show List.count c ['-', '>'] = 0; exact count_two h9 h10) harr,
    count_replaceScan "←".toList m.arrow c
      (by show List.count c ['←'] = 0; exact count_one h8) harr,
    count_replaceScan "→".toList m.arrow c
      (by show List.count c ['→'] = 0; exact count_one h7) harr,
    count_hashScan m.number c h6 hnum,
    count_ampScan m.and_word c hsp h5 hand,
    count_bulletSub c _ hsp hbul,
    count_currencyScan '₽' m.rubles c h4 hrub,
    count_currencyScan '£' m.pounds c h3 hpou,
    count_currencyScan '€' m.euros c h2 heur,
    count_currencyScan '$' m.dollars c h1 hdol]

/-- The whole pass pipeline preserves the number of occurrences of any
character outside every pattern alphabet whose localized phrases avoid
the character. -/
theorem count_runPasses (m : SymbolMap) (c : Char) (s : Text)
    (hsp : isPySpace c = false) (hbul : isBullet c = false)
    (hpt : List.count c m.point = 0)
    (hge : List.count c m.greater_or_equal = 0) (hle : List.count c m.less_or_equal = 0)
    (hnq : List.count c m.not_equal = 0) (heq : List.count c m.equals = 0)
    (hpl : List.count c m.plus = 0) (hpc : List.count c m.percent = 0)
    (hdol : List.count c m.dollars = 0) (heur : List.count c m.euros = 0)
    (hpou : List.count c m.pounds = 0) (hrub : List.count c m.rubles = 0)
    (hand : List.count c m.and_word = 0) (hnum : List.count c m.number = 0)
    (harr : List.count c m.arrow = 0)
    (k1 : c ≠ '.') (k2 : c ≠ ')') (k3 : c ≠ '>') (k4 : c ≠ '<') (k5 : c ≠ '!')
    (k6 : c ≠ '=') (k7 : c ≠ '+') (k8 : c ≠ '%') (k9 : c ≠ '$') (k10 : c ≠ '€')
    (k11 : c ≠ '£') (k12 : c ≠ '₽') (k13 : c ≠ '&') (k14 : c ≠ '#')
    (k15 : c ≠ '→') (k16 : c ≠ '←') (k17 : c ≠ '-') :
    List.count c (runPasses m s) = List.count c s := by
  have hspace : c ≠ ' ' := by
    intro h0
    have htrue : isPySpace ' ' = true := rfl
    rw [h0, htrue] at hsp
    cases hsp
  unfold runPasses collapseSpaces
  rw [count_collapseScan c hspace,
    count_convert_standalone m c _ hsp hbul hdol heur hpou hrub hand hnum harr
      k9 k10 k11 k12 k13 k14 k15 k16 k17 k3 k4,
    count_convert_math m c _ hsp hge hle hnq heq hpl hpc k3 k4 k5 k6 k7 k8,
    count_convert_numbered_lists m.point c s hpt k1 k2]

/-- Any language code selects one of the two built-in tables. -/
theorem getSymbolMap_cases (language : String) :
    getSymbolMap language = SYMBOL_MAP_EN ∨ getSymbolMap language = SYMBOL_MAP_RU := by
  by_cases hru : language = "ru"
  · subst hru
    right
    rfl
  · by_cases hen : language = "en"
    · subst hen
      left
      rfl
    · left
      have hlk : LANGUAGE_MAPS.lookup language = none := by
        have b1 : (language == "ru") = false := beq_eq_false_iff_ne.mpr hru
        have b2 : (language == "en") = false := beq_eq_false_iff_ne.mpr hen
        simp [LANGUAGE_MAPS, List.lookup, b1, b2]
      simp [getSymbolMap, hlk]

/-- The pass pipeline never reads the times, divided_by, at and yen
entries of the phrase table. -/
theorem runPasses_ignores_unused (m : SymbolMap) (t d a y : Text) (s : Text) :
    runPasses { m with times := t, divided_by := d, at_word := a, yen := y } s =
      runPasses m s := by
  cases m
  rfl

/-- The four characters with table entries but no rewrite rule are
preserved by the whole transform, whatever the selected language. -/
theorem count_process (hint oracle : String) (s : Text) (c : Char)
    (hc : c = '*' ∨ c = '/' ∨ c = '@' ∨ c = '¥') :
    List.count c (process hint oracle s) = List.count c s := by
  unfold process selectedMap
  rcases getSymbolMap_cases (resolveLanguage hint oracle) with hm | hm <;> rw [hm] <;>
    rcases hc with rfl | rfl | rfl | rfl <;>
    apply count_runPasses <;> decide

/-- C1, counterexample: re-running transform on the already-transformed
output of a parenthesis marker changes the text again, because the
first run leaves the numeral-looking residue that the second run
rewrites with the point phrase. -/
theorem C1_counterexample :
    transform (transform "3) Buy milk" "en" "en") "en" "en" ≠
      transform "3) Buy milk" "en" "en" := by decide

/-- C1, amended: re-running transform on already-transformed output is
total and leaves the output of a period marker fixed, but the
parenthesis normalization leaves the residue of a period marker that a
second run rewrites again, prefixing the point phrase. -/
theorem C1_theorem :
    transform "3) Buy milk" "en" "en" = "3. Buy milk" ∧
    transform (transform "3) Buy milk" "en" "en") "en" "en" = "Point 3. Buy milk" ∧
    transform (transform "3. Buy milk" "en" "en") "en" "en" =
      transform "3. Buy milk" "en" "en" := by decide

/-- C2, counterexample: with the non-empty unregistered hint fr and an
oracle that would report ru, the code selects the English table while
the claimed resolution selects the Russian table. -/
theorem C2_counterexample :
    selectedMap "fr" "ru" ≠ claimedSelectedMap "fr" "ru" := by decide

/-- C2, amended: a non-empty hint is always used as the language, so
an unregistered non-empty hint falls back directly to the English
table and the oracle is not consulted; only an empty hint uses the
oracle result, whose registry lookup failure falls back to the English
table. -/
theorem C2_theorem (hint oracle : String) :
    selectedMap hint oracle =
      if hint ≠ "" then
        (if (LANGUAGE_MAPS.lookup hint).isSome = true then
          (LANGUAGE_MAPS.lookup hint).getD SYMBOL_MAP_EN
        else SYMBOL_MAP_EN)
      else
        (if (LANGUAGE_MAPS.lookup oracle).isSome = true then
          (LANGUAGE_MAPS.lookup oracle).getD SYMBOL_MAP_EN
        else SYMBOL_MAP_EN) := by
  unfold selectedMap resolveLanguage getSymbolMap
  by_cases h : hint = ""
  · subst h
    have e1 : (if ("" : String) = "" then oracle else "") = oracle := if_pos rfl
    rw [e1, if_neg (fun hcon : ("" : String) ≠ "" => hcon rfl)]
    by_cases ho : oracle = ""
    · subst ho
      rw [if_neg (fun hcon : ("" : String) ≠ "" ∧ _ => hcon.1 rfl)]
      have hlk : LANGUAGE_MAPS.lookup "" = none := rfl
      rw [hlk]
      rfl
    · by_cases hs : (LANGUAGE_MAPS.lookup oracle).isSome = true
      · rw [if_pos (⟨ho, hs⟩ : oracle ≠ "" ∧ _), if_pos hs]
      · rw [if_neg (fun hcon : oracle ≠ "" ∧ _ => hs hcon.2), if_neg hs]
  · have e1 : (if hint = "" then oracle else hint) = hint := if_neg h
    rw [e1, if_pos (h : hint ≠ "")]
    by_cases hs : (LANGUAGE_MAPS.lookup hint).isSome = true
    · rw [if_pos (⟨h, hs⟩ : hint ≠ "" ∧ _), if_pos hs]
    · rw [if_neg (fun hcon : hint ≠ "" ∧ _ => hs hcon.2), if_neg hs]

/-- C3: a line-start marker of one to three digits terminated by a
period keeps the digits and the period and gets the point phrase
prefixed, while a parenthesis-terminated marker only has the
parenthesis replaced by a period; concretely the two spec examples
hold. -/
theorem C3_theorem :
    (∀ (pointWord ds rest : Text), ds ≠ [] → ds.length ≤ 3 → AllDigit ds →
      convert_numbered_lists pointWord (ds ++ '.' :: rest) =
        pointWord ++ ds ++ '.' :: rest.takeWhile isPySpace ++
          listScan pointWord (rest.dropWhile isPySpace).length (rest.dropWhile isPySpace) ∧
      convert_numbered_lists pointWord (ds ++ ')' :: rest) =
        ds ++ '.' :: rest.takeWhile isPySpace ++
          listScan pointWord (rest.dropWhile isPySpace).length (rest.dropWhile isPySpace)) ∧
    transform "3. Buy milk" "en" "en" = "Point 3. Buy milk" ∧
    transform "3) Buy milk" "en" "en" = "3. Buy milk" :=
  ⟨fun pointWord ds rest h1 h2 h3 =>
    ⟨convert_numbered_lists_dot pointWord ds rest h1 h2 h3,
     convert_numbered_lists_paren pointWord ds rest h1 h2 h3⟩,
   by decide, by decide⟩

/-- C3, witness: the general component instantiated at the marker 3
with the tail of the first spec example. -/
theorem C3_witness :
    convert_numbered_lists "Point ".toList (['3'] ++ '.' :: " Buy milk".toList) =
      "Point ".toList ++ ['3'] ++ '.' :: (" Buy milk".toList).takeWhile isPySpace ++
        listScan "Point ".toList ((" Buy milk".toList).dropWhile isPySpace).length
          ((" Buy milk".toList).dropWhile isPySpace) ∧
    convert_numbered_lists "Point ".toList (['3'] ++ ')' :: " Buy milk".toList) =
      ['3'] ++ '.' :: (" Buy milk".toList).takeWhile isPySpace ++
        listScan "Point ".toList ((" Buy milk".toList).dropWhile isPySpace).length
          ((" Buy milk".toList).dropWhile isPySpace) :=
  C3_theorem.1 "Point ".toList ['3'] " Buy milk".toList (by decide) (by decide) (by decide)

/-- C4, counterexample: the hash substitution inserts the English
number phrase with its leading space at the start of the text, and the
cleanup only collapses runs of two or more spaces, so the single
leading space survives and the result is not the claimed string. -/
theorem C4_counterexample :
    transform "#42 issue" "en" "en" ≠ "number 42 issue" := by decide

/-- C4, amended: a hash followed by digits becomes the number phrase
plus the digits; at the very start of the text the leading space of
the inserted phrase survives, while after a space-terminated prefix
the doubled spacing collapses to single spacing. -/
theorem C4_theorem :
    transform "#42 issue" "en" "en" = " number 42 issue" ∧
    transform "see #42 issue" "en" "en" = "see number 42 issue" := by decide

/-- C5: multi-character comparison operators are replaced before any
single equals substitution; on the Russian example the output is the
fully localized phrase, the English phrase is absent, and no equals
sign survives for the later equals rules to mangle. -/
theorem C5_theorem :
    transform "50 >= 40" "ru" "ru" = "50 больше или равно 40" ∧
    occursIn "больше или равно".toList (transform "50 >= 40" "ru" "ru").toList = true ∧
    occursIn "greater than or equal to".toList (transform "50 >= 40" "ru" "ru").toList = false ∧
    occursIn ['='] (transform "50 >= 40" "ru" "ru").toList = false := by decide

/-- C6: a word run, optional whitespace, an equals sign, optional
whitespace and a word run are replaced by the left operand, the
localized equals phrase and the right operand; concretely the spec
example holds with collapsed spacing. -/
theorem C6_theorem :
    (∀ (eqWord w1 sp1 sp2 w2 rest : Text),
      AllWord w1 → w1 ≠ [] → AllSpace sp1 → AllSpace sp2 → AllWord w2 → w2 ≠ [] →
      HeadNot isWordChar rest →
      eqSub eqWord (w1 ++ (sp1 ++ '=' :: (sp2 ++ (w2 ++ rest)))) =
        w1 ++ eqWord ++ w2 ++ eqSub eqWord rest) ∧
    transform "x = 5" "en" "en" = "x equals 5" :=
  ⟨fun eqWord w1 sp1 sp2 w2 rest h1 h2 h3 h4 h5 h6 h7 =>
    eqSub_run eqWord w1 sp1 sp2 w2 rest h1 h2 h3 h4 h5 h6 h7,
   by decide⟩

/-- C6, witness: the general component instantiated at the first spec
example. -/
theorem C6_witness :
    eqSub " equals ".toList (['x'] ++ ([' '] ++ '=' :: ([' '] ++ (['5'] ++ [])))) =
      ['x'] ++ " equals ".toList ++ ['5'] ++ eqSub " equals ".toList [] :=
  C6_theorem.1 " equals ".toList ['x'] [' '] [' '] ['5'] []
    (by decide) (by decide) (by decide) (by decide) (by decide) (by decide) (by decide)

/-- C7: a currency symbol immediately followed by a digit run,
optionally with exactly two decimal places, is replaced by the amount
followed by the localized currency phrase with the symbol dropped; a
currency symbol not followed by a digit is left untouched; concretely
the spec example holds. -/
theorem C7_theorem :
    (∀ (sym : Char) (word ds rest : Text), ds ≠ [] → AllDigit ds →
      HeadNot isPyDigit rest →
      (∀ d1 d2 r2, rest = '.' :: d1 :: d2 :: r2 →
        (isPyDigit d1 && isPyDigit d2) = false) →
      currencySub sym word (sym :: (ds ++ rest)) =
        ds ++ word ++ currencySub sym word rest) ∧
    (∀ (sym : Char) (word ds r2 : Text) (d1 d2 : Char), ds ≠ [] → AllDigit ds →
      isPyDigit d1 = true → isPyDigit d2 = true →
      currencySub sym word (sym :: (ds ++ '.' :: d1 :: d2 :: r2)) =
        (ds ++ '.' :: d1 :: d2 :: []) ++ word ++ currencySub sym word r2) ∧
    (∀ (sym : Char) (word rest : Text), HeadNot isPyDigit rest →
      currencySub sym word (sym :: rest) = sym :: currencySub sym word rest) ∧
    transform "Total: $9.99" "en" "en" = "Total: 9.99 dollars" :=
  ⟨fun sym word ds rest h1 h2 h3 h4 => currencySub_plain sym word ds rest h1 h2 h3 h4,
   fun sym word ds r2 d1 d2 h1 h2 h3 h4 => currencySub_decimal sym word ds r2 d1 d2 h1 h2 h3 h4,
   fun sym word rest h => currencySub_noamount sym word rest h,
   by decide⟩

/-- C7, witness: the decimal component instantiated at the spec
example amount and the untouched component instantiated at a dollar
sign followed by a letter. -/
theorem C7_witness :
    currencySub '$' " dollars".toList ('$' :: (['9'] ++ '.' :: '9' :: '9' :: [])) =
      (['9'] ++ '.' :: '9' :: '9' :: []) ++ " dollars".toList ++
        currencySub '$' " dollars".toList [] ∧
    currencySub '$' " dollars".toList ('$' :: ['x']) =
      '$' :: currencySub '$' " dollars".toList ['x'] :=
  ⟨C7_theorem.2.1 '$' " dollars".toList ['9'] [] '9' '9'
      (by decide) (by decide) (by decide) (by decide),
   C7_theorem.2.2.1 '$' " dollars".toList ['x'] (by decide)⟩

/-- C8: for every input text and language the transform output
contains no run of two or more consecutive space characters, because
the final cleanup collapses every such run into a single space. -/
theorem C8_theorem (text hint oracle : String) :
    hasDoubleSpace (transform text hint oracle).toList = false := by
  simp only [transform, String.toList]
  unfold process runPasses
  exact collapseSpaces_noDouble _

/-- C9: the pass pipeline never reads the times, divided_by, at and
yen table entries, so its output is unchanged when they are replaced
by any other strings, and the transform preserves every occurrence of
the star, slash, at sign and yen sign for every input and language. -/
theorem C9_theorem :
    (∀ (m : SymbolMap) (t d a y : Text) (s : Text),
      runPasses { m with times := t, divided_by := d, at_word := a, yen := y } s =
        runPasses m s) ∧
    (∀ (hint oracle : String) (s : Text),
      List.count '*' (process hint oracle s) = List.count '*' s ∧
      List.count '/' (process hint oracle s) = List.count '/' s ∧
      List.count '@' (process hint oracle s) = List.count '@' s ∧
      List.count '¥' (process hint oracle s) = List.count '¥' s) :=
  ⟨runPasses_ignores_unused,
   fun hint oracle s =>
     ⟨count_process hint oracle s '*' (Or.inl rfl),
      count_process hint oracle s '/' (Or.inr (Or.inl rfl)),
      count_process hint oracle s '@' (Or.inr (Or.inr (Or.inl rfl))),
      count_process hint oracle s '¥' (Or.inr (Or.inr (Or.inr rfl)))⟩⟩

/-- C10, counterexample: in the two-bullet input the first match
consumes the newline as trailing whitespace, so the second glyph,
though preceded only by whitespace after a newline of the input,
survives in the output. -/
theorem C10_counterexample :
    transform "•\n• b" "en" "en" = "• b" ∧
    occursIn ['•'] (transform "•\n• b" "en" "en").toList = true := by decide

/-- C10, amended: bullet removal fires on indented bullets: a glyph
preceded only by whitespace since the start of the text, or since a
newline that was not consumed as the trailing whitespace of an earlier
bullet match, is deleted together with the whitespace before and after
it; glyph deletion is not restricted to glyphs at the first column. -/
theorem C10_theorem :
    (∀ (ws ws2 rest : Text) (g : Char), AllSpace ws → isBullet g = true →
      AllSpace ws2 → HeadNot isPySpace rest → GlyphFree rest →
      bulletSub (ws ++ g :: (ws2 ++ rest)) = rest) ∧
    (∀ (pre ws ws2 rest : Text) (g : Char), GlyphFree pre → pre ≠ [] →
      (∀ c, pre.getLast? = some c → isPySpace c = false) →
      AllSpace ws → isBullet g = true → AllSpace ws2 →
      HeadNot isPySpace rest → GlyphFree rest →
      bulletSub (pre ++ '\n' :: (ws ++ g :: (ws2 ++ rest))) = pre ++ '\n' :: rest) ∧
    transform "  • item" "en" "en" = "item" ∧
    transform "a\n  • item" "en" "en" = "a\nitem" :=
  ⟨fun ws ws2 rest g h1 h2 h3 h4 h5 => bulletSub_start ws ws2 rest g h1 h2 h3 h4 h5,
   fun pre ws ws2 rest g h1 h2 h3 h4 h5 h6 h7 h8 =>
     bulletSub_newline pre ws ws2 rest g h1 h2 h3 h4 h5 h6 h7 h8,
   by decide, by decide⟩

/-- C10, witness: the two general components instantiated at an
indented bullet at the start of the text and at an indented bullet
after a newline. -/
theorem C10_witness :
    bulletSub ([' ', ' '] ++ '•' :: ([' '] ++ "item".toList)) = "item".toList ∧
    bulletSub (['a'] ++ '\n' :: ([' ', ' '] ++ '•' :: ([' '] ++ "item".toList))) =
      ['a'] ++ '\n' :: "item".toList :=
  ⟨C10_theorem.1 [' ', ' '] [' '] "item".toList '•'
      (by decide) (by decide) (by decide) (by decide) (by decide),
   C10_theorem.2.1 ['a'] [' ', ' '] [' '] "item".toList '•'
      (by decide) (by decide)
      (by
        intro c hc
        have h0 : (['a'] : Text).getLast? = some 'a' := rfl
        rw [h0, Option.some.injEq] at hc
        subst hc
        decide)
      (by decide) (by decide) (by decide) (by decide) (by decide)⟩

end TTS
